import Mathlib

/-!
Verification of the RustyDB SQL execution core against its specification.

The development shallowly embeds the row streams, transform / join / write /
aggregation operators and the schema model of the repository.  Row streams are
modelled as finite lists of fallible items, mirroring the pull-based iterator
pipeline: each item is either a produced `(RecordId, Row)` pair or an error.
Machine details that live outside the embedded sources (the `Field` value
type, `Row` accessors, `Expression::evaluate`, `RecordId`) are modelled from
the specification, as noted on each such definition.
-/

namespace RustyDB

/-- Modelled from the spec: the error taxonomy of the engine (`InvalidInput`,
`EvaluationError`, `StorageError`); the concrete `Error` enum lives outside
the embedded sources. -/
inductive Error where
  | invalidInput (msg : String)
  | evaluation (msg : String)
  | storage (msg : String)
deriving DecidableEq, Repr

/-- Modelled from the spec: the tagged `Field` value
(`Null | Boolean | Integer(i64) | Text`); `field.rs` is not among the
embedded sources.  The `Float` variant is omitted: no verified claim depends
on floating-point values. -/
inductive Field where
  | null
  | boolean (b : Bool)
  | integer (i : Int)
  | text (s : String)
deriving DecidableEq, Repr

/-- Decidable equality of fallible results, used to evaluate the concrete
witnesses below. -/
instance exceptDecEq {ε α : Type _} [DecidableEq ε] [DecidableEq α] :
    DecidableEq (Except ε α) := fun x y =>
  match x, y with
  | .ok a, .ok b =>
      if h : a = b then isTrue (by rw [h])
      else isFalse (by intro hh; injection hh with h2; exact h h2)
  | .ok _, .error _ => isFalse (fun hh => Except.noConfusion hh)
  | .error _, .ok _ => isFalse (fun hh => Except.noConfusion hh)
  | .error e1, .error e2 =>
      if h : e1 = e2 then isTrue (by rw [h])
      else isFalse (by intro hh; injection hh with h2; exact h h2)

/-- Modelled from the spec: `RecordId` is an opaque storage-assigned identity
with a total order (it is used as a `BTreeMap` key); we model it as `Nat`. -/
abbrev RecordId := Nat

/-- Modelled from the spec: the sentinel "invalid" record identity denoting
computed rows that are not directly addressable. -/
def INVALID_RID : RecordId := 0

/-- A row is an ordered sequence of `Field` values (spec §3). -/
abbrev Row := List Field

/-- A row stream: a finite sequence of fallible `(identity, row)` items,
the shallow embedding of the `Rows` boxed iterator. -/
abbrev RowStream := List (Except Error (RecordId × Row))

/-- Modelled from the spec: `Expression.evaluate(optionalRow) -> Field or
evaluation-error`, a pure opaque capability.  All embedded operators call it
with `Some(&row)`, so we model it as a function of the row. -/
abbrev Expression := Row → Except Error Field

/-- Modelled from the spec: the planner's sort `Direction`. -/
inductive Direction where
  | ascending
  | descending
deriving DecidableEq, Repr

/-- Modelled from the spec: positional, fallible access to a row field
(`Row::get_field`; `row.rs` is not among the embedded sources). -/
def Row.get_field (row : Row) (i : Nat) : Except Error Field :=
  match row.get? i with
  | some f => .ok f
  | none => .error (.invalidInput "field index out of bounds")

/-- Modelled from the spec: positional, fallible in-place update of a row
field (`Row::update_field`; `row.rs` is not among the embedded sources). -/
def Row.update_field (row : Row) (i : Nat) (v : Field) : Except Error Row :=
  if i < row.length then .ok (row.set i v)
  else .error (.invalidInput "field index out of bounds")

/-- Modelled from the spec / the comment in `join.rs`: a value is "undefined"
for equality purposes when it is NULL (NaN is out of scope with `Float`
omitted). `Field::is_undefined`. -/
def Field.is_undefined : Field → Bool
  | .null => true
  | _ => false

/-- Three-way comparison derived from a linear order, used to model the
`Ord` implementations of the primitive Rust types. -/
def cmpVia {α : Type _} [LinearOrder α] (x y : α) : Ordering :=
  if x < y then .lt else if y < x then .gt else .eq

/-- Modelled from the spec: the fixed total order on `Field` used by ORDER BY,
GROUP BY bucket keys and MAX/MIN (`field.rs` is not among the embedded
sources).  The spec fixes NULL before every value and requires one consistent
cross-type order; we rank NULL, then booleans, integers and text, each
compared by its natural order within the type. -/
def Field.cmp : Field → Field → Ordering
  | .null, .null => .eq
  | .null, .boolean _ => .lt
  | .null, .integer _ => .lt
  | .null, .text _ => .lt
  | .boolean _, .null => .gt
  | .boolean x, .boolean y => cmpVia x y
  | .boolean _, .integer _ => .lt
  | .boolean _, .text _ => .lt
  | .integer _, .null => .gt
  | .integer _, .boolean _ => .gt
  | .integer x, .integer y => cmpVia x y
  | .integer _, .text _ => .lt
  | .text _, .null => .gt
  | .text _, .boolean _ => .gt
  | .text _, .integer _ => .gt
  | .text x, .text y => cmpVia x y

/-- Modelled from the spec: checked addition on fields (`Field::checked_add`,
outside the embedded sources).  Integer addition checks the i64 range; any
other combination (including NULL operands, whose handling the spec leaves
explicitly unspecified) fails with an evaluation error. -/
def Field.checked_add : Field → Field → Except Error Field
  | .integer x, .integer y =>
      if -(2 ^ 63) ≤ x + y ∧ x + y < 2 ^ 63 then .ok (.integer (x + y))
      else .error (.evaluation "integer overflow")
  | _, _ => .error (.evaluation "cannot add these field types")

/-- Modelled from the spec: checked division on fields (`Field::checked_div`,
outside the embedded sources).  Division by zero and type mismatches fail. -/
def Field.checked_div : Field → Field → Except Error Field
  | .integer x, .integer y =>
      if y = 0 then .error (.evaluation "division by zero")
      else .ok (.integer (Int.tdiv x y))
  | _, _ => .error (.evaluation "cannot divide these field types")

/-- Lexicographic comparison of field vectors, modelling the derived `Ord` on
`Vec<Field>` used for `BTreeMap` bucket keys. -/
def cmpFieldList : List Field → List Field → Ordering
  | [], [] => .eq
  | [], _ :: _ => .lt
  | _ :: _, [] => .gt
  | a :: as, b :: bs =>
      match Field.cmp a b with
      | .eq => cmpFieldList as bs
      | o => o

/-- Sequencing of a fallible step over a list, aborting at the first error:
the shallow embedding of `try_collect()` over a mapped iterator. -/
def exceptMapM {α β : Type _} (f : α → Except Error β) : List α → Except Error (List β)
  | [] => .ok []
  | a :: rest =>
      match f a with
      | .error e => .error e
      | .ok b =>
          match exceptMapM f rest with
          | .error e => .error e
          | .ok bs => .ok (b :: bs)

namespace Transform

/-- Embeds `transform::filter` (`transform.rs` lines 13-44): keep rows whose
predicate evaluates to boolean true, silently drop false/NULL, turn any other
resulting field into an `InvalidInput` error item, and pass error items
through.  The source interpolates the offending value into the message; the
model uses a fixed message. -/
def filter (source : RowStream) (predicate : Expression) : RowStream :=
  source.filterMap fun item =>
    match item with
    | .error e => some (.error e)
    | .ok (rid, row) =>
        match predicate row with
        | .error e => some (.error e)
        | .ok (.boolean true) => some (.ok (rid, row))
        | .ok (.boolean false) => none
        | .ok .null => none
        | .ok _ => some (.error (.invalidInput "filter returned non-boolean, expected boolean"))

/-- Embeds `transform::limit` (`transform.rs` lines 50-52): `source.take(limit)`. -/
def limit (source : RowStream) (n : Nat) : RowStream :=
  source.take n

/-- Embeds `transform::offset` (`transform.rs` lines 56-58): `source.skip(offset)`. -/
def offset (source : RowStream) (n : Nat) : RowStream :=
  source.drop n

/-- The per-row sort key evaluation of `transform::order` (`transform.rs`
lines 71-77): evaluate every key expression once against the row, aborting at
the first evaluation error. -/
def evalKeys (ord : List (Expression × Direction)) (row : Row) : Except Error (List Field) :=
  exceptMapM (fun ed => ed.1 row) ord

/-- The comparator of `transform::order` (`transform.rs` lines 79-89):
compare precomputed key vectors positionally; the first non-equal key
decides, with a descending direction reversing only that key's result;
exhausting the zipped lists yields equality. -/
def cmpKeys : List Direction → List Field → List Field → Ordering
  | dir :: dirs, a :: as, b :: bs =>
      match Field.cmp a b with
      | .eq => cmpKeys dirs as bs
      | o => if dir = .descending then o.swap else o
  | _, _, _ => .eq

/-- The collection step of `transform::order` (`transform.rs` lines 66-69):
materialize the source stream, aborting at the first error item. -/
def collectOk : RowStream → Except Error (List (RecordId × Row))
  | [] => .ok []
  | .error e :: _ => .error e
  | .ok p :: rest =>
      match collectOk rest with
      | .error e => .error e
      | .ok ps => .ok (p :: ps)

/-- Embeds `transform::order` (`transform.rs` lines 61-92): materialize the
stream, precompute every row's key vector, stably sort the enumerated rows by
the key comparator (Rust's `sort_by` is a stable sort, modelled by
`List.insertionSort`), and emit the rows in sorted order. -/
def order (source : RowStream) (ord : List (Expression × Direction)) :
    Except Error RowStream :=
  match collectOk source with
  | .error e => .error e
  | .ok irows =>
      match exceptMapM (fun p => evalKeys ord p.2) irows with
      | .error e => .error e
      | .ok svals =>
          let entries := irows.enum.zip svals
          let sorted := List.insertionSort
            (fun a b => cmpKeys (ord.map Prod.snd) a.2 b.2 ≠ Ordering.gt) entries
          .ok (sorted.map fun e => .ok e.1.2)

end Transform

namespace Write

/-- The record-id collection loop of `write::delete` (`write.rs` lines 17-22):
drain the source, keep every row identity, ignore the row contents; an error
item aborts with that error. -/
def collectRids : RowStream → Except Error (List RecordId)
  | [] => .ok []
  | .error e :: _ => .error e
  | .ok (rid, _) :: rest =>
      match collectRids rest with
      | .error e => .error e
      | .ok rids => .ok (rid :: rids)

/-- Embeds `write::delete` (`write.rs` lines 12-28).  The storage-level batch
delete is the `txnDelete` capability.  Note the `let _ :=` binding: the
source discards the result of `txn.delete` (`let _ = txn.delete(...)`) and
returns the consumed count unconditionally. -/
def delete (txnDelete : String → List RecordId → Except Error Unit)
    (table : String) (source : RowStream) : Except Error Nat :=
  match collectRids source with
  | .error e => .error e
  | .ok rids =>
      let _ := txnDelete table rids
      .ok rids.length

/-- The per-row expression loop of `write::update` (`write.rs` lines 71-74):
apply each `(column index, expression)` pair in list order, evaluating every
expression against the row's current, already partially updated state before
performing that pair's field update. -/
def applyExpressions (expressions : List (Nat × Expression)) (row : Row) :
    Except Error Row :=
  match expressions with
  | [] => .ok row
  | (i, e) :: rest =>
      match e row with
      | .error er => .error er
      | .ok v =>
          match row.update_field i v with
          | .error er => .error er
          | .ok row2 => applyExpressions rest row2

/-- Insertion into the identity-ordered staging map (`BTreeMap::insert`):
keys stay sorted, and inserting an existing key replaces its value. -/
def stageInsert (m : List (RecordId × Row)) (rid : RecordId) (row : Row) :
    List (RecordId × Row) :=
  match m with
  | [] => [(rid, row)]
  | (k, r) :: rest =>
      if rid < k then (rid, row) :: (k, r) :: rest
      else if rid = k then (rid, row) :: rest
      else (k, r) :: stageInsert rest rid row

/-- Lookup in the staging map. -/
def stageLookup (m : List (RecordId × Row)) (rid : RecordId) : Option Row :=
  match m with
  | [] => none
  | (k, r) :: rest => if rid = k then some r else stageLookup rest rid

/-- The draining loop of `write::update` (`write.rs` lines 69-76): for each
source row, mutate it through the expression list and stage it in the map
keyed by its original identity; an error item or a failing step aborts. -/
def stageAll (expressions : List (Nat × Expression)) :
    RowStream → List (RecordId × Row) → Except Error (List (RecordId × Row))
  | [], m => .ok m
  | .error e :: _, _ => .error e
  | .ok (rid, row) :: rest, m =>
      match applyExpressions expressions row with
      | .error e => .error e
      | .ok row2 => stageAll expressions rest (stageInsert m rid row2)

/-- Embeds `write::update` (`write.rs` lines 60-86): drain and stage the
source, issue one batched storage update (the `txnUpdate` capability,
propagating its error), and return the number of staged identities. -/
def update (txnUpdate : String → List (RecordId × Row) → Except Error Unit)
    (table : String) (source : RowStream)
    (expressions : List (Nat × Expression)) : Except Error Nat :=
  match stageAll expressions source [] with
  | .error e => .error e
  | .ok updates =>
      match txnUpdate table updates with
      | .error e => .error e
      | .ok _ => .ok updates.length

end Write

namespace Exec

/-- The plan-node fragment of `execute.rs` that the verified claims touch.
`Values` models the literal row source (`source::values` is outside the
embedded sources; per the spec it yields a finite stream of literal rows). -/
inductive Node where
  | values (rows : List Row)
  | filter (source : Node) (predicate : Expression)
  | limit (source : Node) (n : Nat)
  | offset (source : Node) (n : Nat)

/-- Embeds the corresponding dispatch arms of `execute` (`execute.rs`):
children are lowered first and wrapped by the operator.  The result is `none`
when execution panics: the `Node::Offset` arm of the source is `todo!()`
(`execute.rs` lines 176-181), so it panics without touching its child. -/
def executeNode : Node → Option RowStream
  | .values rows => some (rows.map fun r => .ok (INVALID_RID, r))
  | .filter s p => (executeNode s).map fun rs => Transform.filter rs p
  | .limit s n => (executeNode s).map fun rs => Transform.limit rs n
  | .offset _ _ => none

end Exec

namespace Join

/-- One left row's scan over the remaining right stream in
`NestedLoopIterator::try_next` (`join.rs` lines 86-110): emits the items the
iterator produces while this left row is current (error items from the right
stream and from predicate evaluation included), and returns whether a match
was seen.  A pair is emitted exactly when the predicate is absent or
evaluates to `Boolean(true)`; any other predicate value drops the pair. -/
def nlStep (predicate : Option Expression) (lrow : Row) :
    RowStream → Bool → RowStream × Bool
  | [], m => ([], m)
  | .error e :: rrest, m =>
      let (out, m2) := nlStep predicate lrow rrest m
      (.error e :: out, m2)
  | .ok (_, rrow) :: rrest, m =>
      let combined := lrow ++ rrow
      match predicate with
      | none =>
          let (out, m2) := nlStep predicate lrow rrest true
          (.ok (INVALID_RID, combined) :: out, m2)
      | some p =>
          match p combined with
          | .error e =>
              let (out, m2) := nlStep predicate lrow rrest m
              (.error e :: out, m2)
          | .ok (.boolean true) =>
              let (out, m2) := nlStep predicate lrow rrest true
              (.ok (INVALID_RID, combined) :: out, m2)
          | .ok _ => nlStep predicate lrow rrest m

/-- Embeds the full drain of `NestedLoopIterator` (`join.rs` lines 77-152).
Each left row scans the right stream from its start (`right` is cloned from
`right_init` per left row); if the left row had no match and `outer` is set,
one left-row-plus-NULLs row is emitted after the scan.  A left item that is
an error makes `try_next` return `Ok(None)` (`join.rs` line 83), so the
stream ends there without surfacing the error. -/
def nlJoin (rightInit : RowStream) (right_size : Nat)
    (predicate : Option Expression) (outer : Bool) : RowStream → RowStream
  | [] => []
  | .error _ :: _ => []
  | .ok (_, lrow) :: lrest =>
      let (out, m) := nlStep predicate lrow rightInit false
      let padded :=
        if outer && !m then [.ok (INVALID_RID, lrow ++ List.replicate right_size Field.null)]
        else []
      out ++ padded ++ nlJoin rightInit right_size predicate outer lrest

/-- Embeds `join::nested_loop` (`join.rs` lines 16-26); the Rust function
always returns `Ok(iterator)`, so the model returns the drained stream. -/
def nested_loop (left right : RowStream) (right_size : Nat)
    (predicate : Option Expression) (outer : Bool) : RowStream :=
  nlJoin right right_size predicate outer left

/-- Insertion into the right-source multi-map of the hash join
(`right.entry(value).or_default().push(row)`): append to the existing
bucket, or add a new bucket for the key. -/
def mapInsert (m : List (Field × List Row)) (k : Field) (row : Row) :
    List (Field × List Row) :=
  match m with
  | [] => [(k, [row])]
  | (k2, rs) :: rest =>
      if k = k2 then (k2, rs ++ [row]) :: rest
      else (k2, rs) :: mapInsert rest k row

/-- Lookup in the right-source multi-map (`HashMap::get`). -/
def lookupMap (m : List (Field × List Row)) (k : Field) : Option (List Row) :=
  match m with
  | [] => none
  | (k2, rs) :: rest => if k = k2 then some rs else lookupMap rest k

/-- The build phase of `join::hash` (`join.rs` lines 167-176): drain the
right source into a multi-map keyed on the `right_column` value, skipping
rows whose key value is undefined (NULL); a right error item or a failing
field access aborts the whole join construction. -/
def hashBuild (right_column : Nat) :
    RowStream → List (Field × List Row) → Except Error (List (Field × List Row))
  | [], m => .ok m
  | .error e :: _, _ => .error e
  | .ok (_, row) :: rest, m =>
      match row.get_field right_column with
      | .error e => .error e
      | .ok v =>
          if v.is_undefined then hashBuild right_column rest m
          else hashBuild right_column rest (mapInsert m v row)

/-- The probe step for a single left item (`join.rs` lines 182-205): error
items pass through; for a row, the left key is read with an unchecked
`unwrap()`, so a failing access is a panic, modelled as `none`.  Matches emit
the cartesian product with the bucket in insertion order; with no matches,
`outer` emits one left-row-plus-NULLs row and otherwise nothing. -/
def probeOne (m : List (Field × List Row)) (left_column : Nat)
    (right_size : Nat) (outer : Bool) (item : Except Error (RecordId × Row)) :
    Option RowStream :=
  match item with
  | .error e => some [.error e]
  | .ok (_, row) =>
      match row.get_field left_column with
      | .error _ => none
      | .ok v =>
          match lookupMap m v with
          | some bucket => some (bucket.map fun r => .ok (INVALID_RID, row ++ r))
          | none =>
              if outer then some [.ok (INVALID_RID, row ++ List.replicate right_size Field.null)]
              else some []

/-- The probe phase of `join::hash`: the `flat_map` over the left stream,
drained; a panic at any left item (`none` from `probeOne`) is a panic of the
whole drain. -/
def hashProbeAll (m : List (Field × List Row)) (left_column : Nat)
    (right_size : Nat) (outer : Bool) : RowStream → Option RowStream
  | [] => some []
  | item :: rest =>
      match probeOne m left_column right_size outer item with
      | none => none
      | some out =>
          match hashProbeAll m left_column right_size outer rest with
          | none => none
          | some tail => some (out ++ tail)

/-- Embeds `join::hash` (`join.rs` lines 159-208): build the right multi-map
(errors abort with `Err`), then probe with the left stream; the probe result
is `none` when draining the joined stream panics. -/
def hash (left : RowStream) (left_column : Nat) (right : RowStream)
    (right_column : Nat) (right_size : Nat) (outer : Bool) :
    Except Error (Option RowStream) :=
  match hashBuild right_column right [] with
  | .error e => .error e
  | .ok m => .ok (hashProbeAll m left_column right_size outer left)

end Join

namespace Agg

/-- The `Aggregate` plan kind (`sql::planner::Aggregate`, consumed by
`aggregate.rs`), each variant carrying its source expression. -/
inductive Aggregate where
  | average (e : Expression)
  | count (e : Expression)
  | max (e : Expression)
  | min (e : Expression)
  | sum (e : Expression)

/-- Embeds the `Accumulator` enum of `aggregate.rs` (lines 160-166). -/
inductive Accumulator where
  | average (count : Int) (sum : Field)
  | count (n : Int)
  | max (v : Option Field)
  | min (v : Option Field)
  | sum (v : Option Field)
deriving DecidableEq, Repr

/-- Embeds `Accumulator::new` (`aggregate.rs` lines 170-181). -/
def Accumulator.new : Aggregate → Accumulator
  | .average _ => .average 0 (.integer 0)
  | .count _ => .count 0
  | .max _ => .max none
  | .min _ => .min none
  | .sum _ => .sum none

/-- Embeds `Accumulator::add` (`aggregate.rs` lines 221-264). -/
def Accumulator.add (acc : Accumulator) (value : Field) : Except Error Accumulator :=
  match acc with
  | .average cnt s =>
      match s.checked_add value with
      | .error e => .error e
      | .ok s2 => .ok (.average (cnt + 1) s2)
  | .count n =>
      if value = .null then .ok (.count n) else .ok (.count (n + 1))
  | .max (some m) =>
      if Field.cmp value m = .gt then .ok (.max (some value)) else .ok (.max (some m))
  | .max none => .ok (.max (some value))
  | .min (some m) =>
      if Field.cmp value m = .lt then .ok (.min (some value)) else .ok (.min (some m))
  | .min none => .ok (.min (some value))
  | .sum (some s) =>
      match s.checked_add value with
      | .error e => .error e
      | .ok s2 => .ok (.sum (some s2))
  | .sum none =>
      match Field.checked_add (.integer 0) value with
      | .error e => .error e
      | .ok s2 => .ok (.sum (some s2))

/-- Embeds `Accumulator::value` (`aggregate.rs` lines 267-283). -/
def Accumulator.value : Accumulator → Except Error Field
  | .average cnt s =>
      if cnt = 0 then .ok .null else s.checked_div (.integer cnt)
  | .count n => .ok (.integer n)
  | .max v => .ok (v.getD .null)
  | .min v => .ok (v.getD .null)
  | .sum v => .ok (v.getD .null)

/-- The source expression of an aggregate (`Aggregator::new`,
`aggregate.rs` lines 77-82). -/
def Aggregate.expr : Aggregate → Expression
  | .average e => e
  | .count e => e
  | .max e => e
  | .min e => e
  | .sum e => e

/-- The `Aggregator` state (`aggregate.rs` lines 26-66): key-ordered buckets
(a `BTreeMap` over the GROUP BY key vector, modelled as a sorted association
list), the empty accumulator template, the GROUP BY expressions and the
per-aggregate source expressions. -/
structure Aggregator where
  buckets : List (List Field × List Accumulator)
  empty : List Accumulator
  group_by : List Expression
  expressions : List Expression

/-- Lookup in the bucket map. -/
def bucketsLookup (m : List (List Field × List Accumulator)) (k : List Field) :
    Option (List Accumulator) :=
  match m with
  | [] => none
  | (k2, v) :: rest => if k = k2 then some v else bucketsLookup rest k

/-- Key-ordered insertion/replacement in the bucket map (`BTreeMap`
semantics over the key vector's lexicographic order). -/
def bucketsInsert (m : List (List Field × List Accumulator)) (k : List Field)
    (v : List Accumulator) : List (List Field × List Accumulator) :=
  match m with
  | [] => [(k, v)]
  | (k2, v2) :: rest =>
      match cmpFieldList k k2 with
      | .lt => (k, v) :: (k2, v2) :: rest
      | .eq => (k, v) :: rest
      | .gt => (k2, v2) :: bucketsInsert rest k v

/-- The accumulate loop of `Aggregator::add` (`aggregate.rs` lines 114-117):
evaluate each aggregate's source expression against the row and feed the
value into the positionally matching accumulator.  The two lists always have
equal length by construction in `Aggregator::new`. -/
def addValues (row : Row) : List Expression → List Accumulator →
    Except Error (List Accumulator)
  | [], accs => .ok accs
  | _ :: _, [] => .ok []
  | e :: es, acc :: accs =>
      match e row with
      | .error er => .error er
      | .ok v =>
          match acc.add v with
          | .error er => .error er
          | .ok acc2 =>
              match addValues row es accs with
              | .error er => .error er
              | .ok rest => .ok (acc2 :: rest)

/-- Embeds `Aggregator::add` (`aggregate.rs` lines 93-120). -/
def Aggregator.add (agg : Aggregator) (row : Row) : Except Error Aggregator :=
  match exceptMapM (fun e => e row) agg.group_by with
  | .error e => .error e
  | .ok bucket =>
      let accs := (bucketsLookup agg.buckets bucket).getD agg.empty
      match addValues row agg.expressions accs with
      | .error e => .error e
      | .ok accs2 => .ok { agg with buckets := bucketsInsert agg.buckets bucket accs2 }

/-- Embeds `Aggregator::into_rows` (`aggregate.rs` lines 123-154): with no
buckets and no GROUP BY expressions, emit exactly one row of the empty
accumulators' values; otherwise emit one item per bucket in key order, each
item failing on its own if finalizing an accumulator fails. -/
def intoRows (agg : Aggregator) : Except Error RowStream :=
  match agg.buckets, agg.group_by with
  | [], [] =>
      (match exceptMapM Accumulator.value agg.empty with
       | .error e => .error e
       | .ok vals => .ok [.ok (INVALID_RID, vals)])
  | bs, _ =>
      .ok (bs.map fun kv =>
        match exceptMapM Accumulator.value kv.2 with
        | .error e => .error e
        | .ok vals => .ok (INVALID_RID, kv.1 ++ vals))

/-- The drain loop of `aggregate` (`aggregate.rs` lines 19-21): feed each row
into the aggregator, aborting at the first stream or accumulation error. -/
def drain (source : RowStream) (agg : Aggregator) : Except Error Aggregator :=
  match source with
  | [] => .ok agg
  | .error e :: _ => .error e
  | .ok (_, row) :: rest =>
      match agg.add row with
      | .error e => .error e
      | .ok agg2 => drain rest agg2

/-- Embeds `aggregate::aggregate` (`aggregate.rs` lines 13-23). -/
def aggregate (source : RowStream) (group_by : List Expression)
    (aggregates : List Aggregate) : Except Error RowStream :=
  let agg0 : Aggregator :=
    { buckets := []
      empty := aggregates.map Accumulator.new
      group_by := group_by
      expressions := aggregates.map Aggregate.expr }
  match drain source agg0 with
  | .error e => .error e
  | .ok agg => intoRows agg

end Agg

namespace Schema

/-- Embeds `DataType` (`schema.rs` lines 8-14). -/
inductive DataType where
  | bool
  | int
  | float
  | text
  | invalid
deriving DecidableEq, Repr

/-- Embeds `DataType::length_bytes` (`schema.rs` lines 42-50). -/
def DataType.length_bytes : DataType → Nat
  | .bool => 1
  | .int => 4
  | .float => 4
  | .text => 0
  | .invalid => 0

/-- Embeds `Column` (`schema.rs` lines 54-72).  The u16 offset fields are
modelled as `Nat`; the schemas the claims touch stay far below 2^16. -/
structure Column where
  name : String
  data_type : DataType
  nullable : Bool
  default : Option Field
  max_str_len : Nat
  stored_offset : Nat
deriving DecidableEq, Repr

/-- Embeds `Table` (`schema.rs` lines 234-241). -/
structure Table where
  name : String
  fixed_field_size_bytes : Nat
  columns : List Column
deriving DecidableEq, Repr

/-- Embeds `Table::new` (`schema.rs` lines 244-250). -/
def Table.new (table_name : String) : Table :=
  { name := table_name, fixed_field_size_bytes := 0, columns := [] }

/-- Embeds `Table::variable_length_fields` (`schema.rs` lines 346-351): the
count of text columns. -/
def Table.variable_length_fields (t : Table) : Nat :=
  (t.columns.filter fun c => c.data_type = .text).length

/-- Embeds `Table::add_column` (`schema.rs` lines 264-277): a text column
gets the current count of text columns as its variable-length slot index; a
fixed-width column gets the current fixed-region size as its byte offset,
which then grows by the column's width. -/
def Table.add_column (t : Table) (column : Column) : Table :=
  if column.data_type = .text then
    { t with columns := t.columns ++ [{ column with stored_offset := t.variable_length_fields }] }
  else
    { t with
      columns := t.columns ++ [{ column with stored_offset := t.fixed_field_size_bytes }]
      fixed_field_size_bytes := t.fixed_field_size_bytes + column.data_type.length_bytes }

/-- The offset-recomputation loop of `Table::merge` (`schema.rs` lines
358-364): walk the concatenated columns accumulating the fixed-region size,
reassigning only the non-text columns' offsets; text columns are left
untouched, keeping whatever `stored_offset` they carried. -/
def mergeOffsets (acc : Nat) : List Column → List Column × Nat
  | [] => ([], acc)
  | c :: rest =>
      if c.data_type = .text then
        let (rest2, acc2) := mergeOffsets acc rest
        (c :: rest2, acc2)
      else
        let (rest2, acc2) := mergeOffsets (acc + c.data_type.length_bytes) rest
        ({ c with stored_offset := acc } :: rest2, acc2)

/-- Embeds `Table::merge` (`schema.rs` lines 353-366): concatenate the two
column lists, then recompute offsets with `mergeOffsets` starting from 0. -/
def Table.merge (d1 d2 : Table) : Table :=
  let (cols, fixed) := mergeOffsets 0 (d1.columns ++ d2.columns)
  { name := "", fixed_field_size_bytes := fixed, columns := cols }

/-- Convenience constructor mirroring `Table::with_columns` (`schema.rs`
lines 278-282): add the given columns in order. -/
def Table.with_columns (t : Table) (cols : List Column) : Table :=
  cols.foldl Table.add_column t

/-- A plain column for the merge examples. -/
def exCol (nm : String) (dt : DataType) : Column :=
  { name := nm, data_type := dt, nullable := false, default := none,
    max_str_len := 16, stored_offset := 0 }

/-- Example schema `t1(a:int, b:text)`, built through `add_column`. -/
def exT1 : Table :=
  (Table.new "t1").with_columns [exCol "a" .int, exCol "b" .text]

/-- Example schema `t2(c:text, d:int)`, built through `add_column`. -/
def exT2 : Table :=
  (Table.new "t2").with_columns [exCol "c" .text, exCol "d" .int]

end Schema

/-- The single-key comparison of the order comparator with its direction
applied: descending reverses exactly this key's result. -/
def dirCmp (d : Direction) (a b : Field) : Ordering :=
  if d = .descending then (Field.cmp a b).swap else Field.cmp a b

/-- Specification-side description of the staged value for an identity after
an Update drain: the last source row carrying that identity, mutated through
the expression list ("last write for that identity wins"). -/
def lastStagedSpec (expressions : List (Nat × Expression)) :
    RowStream → RecordId → Option Row
  | [], _ => none
  | item :: rest, rid =>
      match lastStagedSpec expressions rest rid with
      | some r => some r
      | none =>
          match item with
          | .ok (r0, row) =>
              if r0 = rid then (Write.applyExpressions expressions row).toOption else none
          | .error _ => none

/-- The identities of the successfully produced rows of a stream. -/
def okRids (source : RowStream) : List RecordId :=
  source.filterMap fun item =>
    match item with
    | .ok (r, _) => some r
    | .error _ => none

/-- Specification-side description of an accumulator's zero/identity value:
`COUNT` over zero rows is integer `0`; `SUM`, `MAX`, `MIN` and `AVG` over
zero rows are NULL. -/
def zeroValueSpec : Agg.Aggregate → Field
  | .count _ => .integer 0
  | _ => .null

theorem cmpVia_eq_lt {α : Type _} [LinearOrder α] (x y : α) : cmpVia x y = .lt ↔ x < y := by
  unfold cmpVia
  rcases lt_trichotomy x y with h | h | h
  · simp [h]
  · simp [h, lt_irrefl]
  · simp [h, h.asymm]

theorem cmpVia_eq_eq {α : Type _} [LinearOrder α] (x y : α) : cmpVia x y = .eq ↔ x = y := by
  unfold cmpVia
  rcases lt_trichotomy x y with h | h | h
  · simp [h, h.ne]
  · simp [h, lt_irrefl]
  · simp [h, h.asymm, h.ne']

theorem cmpVia_swap {α : Type _} [LinearOrder α] (x y : α) : cmpVia x y = (cmpVia y x).swap := by
  unfold cmpVia
  rcases lt_trichotomy x y with h | h | h
  · simp [h, h.asymm, Ordering.swap]
  · simp [h, lt_irrefl, Ordering.swap]
  · simp [h, h.asymm, Ordering.swap]

theorem Field.cmp_eq_of_eq : ∀ {a b : Field}, Field.cmp a b = .eq → a = b := by
  intro a b
  cases a <;> cases b <;> simp [Field.cmp, cmpVia_eq_eq]

theorem Field.cmp_swap (a b : Field) : Field.cmp a b = (Field.cmp b a).swap := by
  cases a <;> cases b <;> first | rfl | exact cmpVia_swap _ _

theorem Field.cmp_lt_trans : ∀ {a b c : Field},
    Field.cmp a b = .lt → Field.cmp b c = .lt → Field.cmp a c = .lt := by
  intro a b c
  cases a <;> cases b <;> cases c <;>
    simp [Field.cmp, cmpVia_eq_lt] <;>
    exact fun h1 h2 => lt_trans h1 h2

theorem dirCmp_eq_of_eq {d : Direction} {a b : Field} (h : dirCmp d a b = .eq) : a = b := by
  unfold dirCmp at h
  by_cases hd : d = .descending
  · rw [if_pos hd] at h
    cases hc : Field.cmp a b <;> rw [hc] at h <;> simp [Ordering.swap] at h
    exact Field.cmp_eq_of_eq hc
  · rw [if_neg hd] at h
    exact Field.cmp_eq_of_eq h

theorem dirCmp_swap (d : Direction) (a b : Field) : dirCmp d a b = (dirCmp d b a).swap := by
  unfold dirCmp
  by_cases hd : d = .descending
  · rw [if_pos hd, if_pos hd, Field.cmp_swap]
  · rw [if_neg hd, if_neg hd, Field.cmp_swap a b]

theorem dirCmp_lt_trans {d : Direction} {a b c : Field}
    (h1 : dirCmp d a b = .lt) (h2 : dirCmp d b c = .lt) : dirCmp d a c = .lt := by
  unfold dirCmp at h1 h2 ⊢
  by_cases hd : d = .descending
  · rw [if_pos hd] at h1 h2 ⊢
    have g1 : Field.cmp b a = .lt := by
      rw [Field.cmp_swap]
      cases hc : Field.cmp a b <;> rw [hc] at h1 <;> simp_all [Ordering.swap]
    have g2 : Field.cmp c b = .lt := by
      rw [Field.cmp_swap]
      cases hc : Field.cmp b c <;> rw [hc] at h2 <;> simp_all [Ordering.swap]
    have g3 : Field.cmp c a = .lt := Field.cmp_lt_trans g2 g1
    rw [Field.cmp_swap, g3]
    rfl
  · rw [if_neg hd] at h1 h2 ⊢
    exact Field.cmp_lt_trans h1 h2

theorem cmpKeys_cons (d : Direction) (ds : List Direction) (a b : Field)
    (as bs : List Field) :
    Transform.cmpKeys (d :: ds) (a :: as) (b :: bs) =
      match dirCmp d a b with
      | .eq => Transform.cmpKeys ds as bs
      | o => o := by
  have hdef : Transform.cmpKeys (d :: ds) (a :: as) (b :: bs) =
      (match Field.cmp a b with
       | .eq => Transform.cmpKeys ds as bs
       | o => if d = .descending then o.swap else o) := rfl
  rw [hdef]
  unfold dirCmp
  cases hc : Field.cmp a b <;> by_cases hd : d = .descending <;>
    simp [hc, hd, Ordering.swap]

theorem cmpKeys_swap : ∀ (ds : List Direction) (ka kb : List Field),
    Transform.cmpKeys ds ka kb = (Transform.cmpKeys ds kb ka).swap := by
  intro ds
  induction ds with
  | nil => intro ka kb; rfl
  | cons d ds ih =>
    intro ka kb
    cases ka with
    | nil => cases kb <;> rfl
    | cons a as =>
      cases kb with
      | nil => rfl
      | cons b bs =>
        rw [cmpKeys_cons, cmpKeys_cons, dirCmp_swap d a b]
        cases hu : dirCmp d b a <;> simp [hu, Ordering.swap, ih as bs]

/-- C1: for every source stream, `write::delete` drains the source and
returns the consumed count even when the storage-level batched delete fails:
the `let _ = txn.delete(...)` in the source discards the storage error
instead of propagating it.  Here the storage delete always fails with a
storage error, yet the operator reports success with count 1. -/
theorem c1_delete_discards_storage_error :
    Write.delete (fun _ _ => .error (.storage "io error")) "t"
      [.ok (1, [Field.integer 7])] = .ok 1 := rfl

/-- C3: a nested-loop join whose left stream yields an error terminates as a
successful, merely-shorter stream: `try_next` maps a left `peek` error to
`Ok(None)` (`join.rs` line 83), so the error is swallowed instead of being
surfaced to the consumer.  Here the left stream is a single storage error
and the join output is the empty successful stream. -/
theorem c3_left_error_swallowed :
    Join.nested_loop [.error (.storage "io error")] [.ok (1, [Field.integer 5])]
      1 none false = [] := rfl

/-- C5: executing an `Offset` plan node does not drop the first k rows of
the child: the `Node::Offset` arm of `execute` is `todo!()` and panics
(modelled as `none`) before touching its child.  The `transform::offset`
helper it should delegate to does implement the claimed semantics: it passes
item k+i of the source through as item i, yielding `len - k` items. -/
theorem c5_offset_arm_unimplemented :
    Exec.executeNode (Exec.Node.offset (Exec.Node.values [[Field.integer 1]]) 0) = none
    ∧ (∀ (s : RowStream) (k i : Nat), (Transform.offset s k)[i]? = s[k + i]?)
    ∧ (∀ (s : RowStream) (k : Nat), (Transform.offset s k).length = s.length - k) := by
  refine ⟨rfl, ?_, ?_⟩
  · intro s k i
    simp [Transform.offset, List.getElem?_drop]
  · intro s k
    simp [Transform.offset]

/-- C4: `Table::merge` does not recompute the variable-length slot indices:
a text column keeps the stale slot index of its source schema.  Merging
`t1(a:int, b:text)` with `t2(c:text, d:int)` leaves column `c` (position 2
in the merged schema) with slot index 0, although one text column precedes
it: the claimed recomputation would give it slot index 1.  (The fixed-width
byte offsets 0 and 4 are recomputed as claimed.) -/
theorem c4_merge_keeps_stale_text_slot :
    (Schema.Table.merge Schema.exT1 Schema.exT2).columns.map
        (fun c => (c.data_type, c.stored_offset)) =
      [(Schema.DataType.int, 0), (Schema.DataType.text, 0),
        (Schema.DataType.text, 0), (Schema.DataType.int, 4)]
    ∧ (((Schema.Table.merge Schema.exT1 Schema.exT2).columns.take 2).filter
        fun c2 => c2.data_type = Schema.DataType.text).length = 1 := by
  constructor <;> rfl

theorem exceptMapM_value_new (aggs : List Agg.Aggregate) :
    exceptMapM Agg.Accumulator.value (aggs.map Agg.Accumulator.new) =
      .ok (aggs.map zeroValueSpec) := by
  induction aggs with
  | nil => rfl
  | cons a rest ih =>
    cases a <;>
      simp [exceptMapM, Agg.Accumulator.new, Agg.Accumulator.value, zeroValueSpec, ih,
        Except.bind]

theorem nlStep_fst_pure (p : Expression) (lrow : Row) :
    ∀ (rights : List (RecordId × Row)) (m : Bool),
      (∀ rp ∈ rights, ∃ f, p (lrow ++ rp.2) = .ok f) →
      (Join.nlStep (some p) lrow (rights.map .ok) m).1 =
        rights.filterMap fun rp =>
          if p (lrow ++ rp.2) = .ok (.boolean true)
          then some (.ok (INVALID_RID, lrow ++ rp.2)) else none := by
  intro rights
  induction rights with
  | nil => intro m _; rfl
  | cons rp rest ih =>
    intro m hp
    obtain ⟨f, hf⟩ := hp rp (List.mem_cons_self _ _)
    obtain ⟨rrid, rrow⟩ := rp
    have hrest := fun q hq => hp q (List.mem_cons_of_mem _ hq)
    by_cases hb : p (lrow ++ rrow) = .ok (.boolean true)
    · simp [Join.nlStep, hb, List.filterMap_cons, ih _ hrest]
    · have hne : (if p (lrow ++ rrow) = .ok (.boolean true)
          then some (Except.ok (ε := Error) (INVALID_RID, lrow ++ rrow)) else none) = none :=
        if_neg hb
      rcases f with _ | b | i | s
      · simp [Join.nlStep, hf, List.filterMap_cons, hne, ih _ hrest]
      · cases b
        · simp [Join.nlStep, hf, List.filterMap_cons, hne, ih _ hrest]
        · exact absurd hf hb
      · simp [Join.nlStep, hf, List.filterMap_cons, hne, ih _ hrest]
      · simp [Join.nlStep, hf, List.filterMap_cons, hne, ih _ hrest]

/-- C2 (counterexample): a nested-loop join predicate that evaluates to the
non-boolean `Integer 7` on the only candidate pair does not make the join
fail with an evaluation error: the pair is silently dropped (the `_ => false`
arm of the predicate match in `join.rs` lines 97-104) and the join output is
the empty successful stream. -/
theorem c2_nonboolean_predicate_dropped_silently :
    Join.nested_loop [.ok (1, [Field.integer 10])] [.ok (2, [Field.integer 20])] 1
      (some fun _ => .ok (.integer 7)) false = [] := rfl

/-- C2 (amended): for pure input streams and a predicate that never fails,
the non-outer nested-loop join keeps a concatenated left-right pair exactly
when the predicate evaluates to `Boolean(true)` on it; every other predicate
value — false, NULL, or any non-boolean — silently drops the pair.  (A
failing predicate evaluation is surfaced as an error item; a non-boolean
success value is not.) -/
theorem c2_nested_loop_keeps_exactly_boolean_true
    (lefts rights : List (RecordId × Row)) (right_size : Nat) (p : Expression)
    (hp : ∀ lp ∈ lefts, ∀ rp ∈ rights, ∃ f, p (lp.2 ++ rp.2) = .ok f) :
    Join.nested_loop (lefts.map .ok) (rights.map .ok) right_size (some p) false =
      lefts.flatMap fun lp =>
        rights.filterMap fun rp =>
          if p (lp.2 ++ rp.2) = .ok (.boolean true)
          then some (.ok (INVALID_RID, lp.2 ++ rp.2)) else none := by
  induction lefts with
  | nil => rfl
  | cons lp rest ih =>
    obtain ⟨lrid, lrow⟩ := lp
    have hstep := nlStep_fst_pure p lrow rights false
      (fun rp hrp => hp (lrid, lrow) (List.mem_cons_self _ _) rp hrp)
    have ihr := ih fun q hq rp hrp => hp q (List.mem_cons_of_mem _ hq) rp hrp
    simp only [Join.nested_loop, List.map_cons, Join.nlJoin] at ihr ⊢
    rw [hstep, ihr]
    simp [List.flatMap_cons]

/-- C2 (witness): the amended theorem applied to a one-row left stream and a
two-row right stream under an equality predicate keeps exactly the matching
pair. -/
theorem c2_keeps_exactly_boolean_true_witness :
    Join.nested_loop [.ok (1, [Field.integer 10])]
      [.ok (2, [Field.integer 20]), .ok (3, [Field.integer 10])] 1
      (some fun r => .ok (.boolean (decide (r.getD 0 Field.null = r.getD 1 Field.null))))
      false = [.ok (INVALID_RID, [Field.integer 10, Field.integer 10])] :=
  (c2_nested_loop_keeps_exactly_boolean_true
    [(1, [Field.integer 10])] [(2, [Field.integer 20]), (3, [Field.integer 10])] 1
    (fun r => .ok (.boolean (decide (r.getD 0 Field.null = r.getD 1 Field.null))))
    (fun _ _ _ _ => ⟨_, rfl⟩)).trans rfl

theorem is_undefined_false_ne_null {v : Field} (hv : v.is_undefined = false) :
    v ≠ .null := by
  intro h
  subst h
  simp [Field.is_undefined] at hv

theorem lookupMap_insert_null (m : List (Field × List Row)) (v : Field) (row : Row)
    (hv : v ≠ .null) :
    Join.lookupMap (Join.mapInsert m v row) .null = Join.lookupMap m .null := by
  induction m with
  | nil => simp [Join.mapInsert, Join.lookupMap, Ne.symm hv]
  | cons kv rest ih =>
    obtain ⟨k2, rs⟩ := kv
    by_cases h : v = k2
    · subst h
      simp [Join.mapInsert, Join.lookupMap, Ne.symm hv]
    · simp only [Join.mapInsert, if_neg h, Join.lookupMap]
      by_cases h2 : Field.null = k2
      · simp [h2]
      · simp [h2, ih]

theorem hashBuild_no_null (rc : Nat) :
    ∀ (right : RowStream) (m0 m : List (Field × List Row)),
      Join.lookupMap m0 .null = none →
      Join.hashBuild rc right m0 = .ok m →
      Join.lookupMap m .null = none := by
  intro right
  induction right with
  | nil =>
    intro m0 m h0 hb
    simp [Join.hashBuild] at hb
    rw [← hb]
    exact h0
  | cons item rest ih =>
    intro m0 m h0 hb
    cases item with
    | error e => simp [Join.hashBuild] at hb
    | ok pr =>
      obtain ⟨rid, row⟩ := pr
      cases hg : row.get_field rc with
      | error e => simp [Join.hashBuild, hg] at hb
      | ok v =>
        by_cases hu : v.is_undefined
        · simp only [Join.hashBuild, hg, hu, if_pos] at hb
          exact ih m0 m h0 hb
        · have hvb : v.is_undefined = false := by
            cases hvv : v.is_undefined
            · rfl
            · exact absurd hvv hu
          simp only [Join.hashBuild, hg, hvb, Bool.false_eq_true, if_neg,
            not_false_eq_true] at hb
          refine ih (Join.mapInsert m0 v row) m ?_ hb
          rw [lookupMap_insert_null m0 v row (is_undefined_false_ne_null hvb)]
          exact h0

/-- C7: right rows whose join-key value is NULL are excluded from the hash
join's build map, so a left row whose own key value is NULL finds no
matches: with the outer flag the join emits exactly one left-row-plus-NULLs
row for it, and without the flag it emits nothing. -/
theorem c7_null_left_key_no_matches (right : RowStream) (rc lc rsize : Nat)
    (outer : Bool) (rid : RecordId) (lrow : Row) (m : List (Field × List Row))
    (hbuild : Join.hashBuild rc right [] = .ok m)
    (hkey : lrow.get_field lc = .ok .null) :
    Join.lookupMap m .null = none
    ∧ Join.hash [.ok (rid, lrow)] lc right rc rsize outer =
        .ok (some (if outer
          then [.ok (INVALID_RID, lrow ++ List.replicate rsize Field.null)]
          else [])) := by
  have hnone : Join.lookupMap m .null = none :=
    hashBuild_no_null rc right [] m rfl hbuild
  refine ⟨hnone, ?_⟩
  unfold Join.hash
  rw [hbuild]
  cases outer <;>
    simp [Join.hashProbeAll, Join.probeOne, hkey, hnone]

/-- C7 (witness): a two-row right stream with one NULL-keyed row builds a
map without the NULL row, and a NULL-keyed left row under the outer flag
yields exactly one padded row. -/
theorem c7_null_left_key_witness :
    Join.lookupMap [(Field.integer 9, [[Field.integer 9]])] .null = none
    ∧ Join.hash [.ok (1, [Field.null])] 0
        [.ok (5, [Field.integer 9]), .ok (6, [Field.null])] 0 1 true =
        .ok (some (if true
          then [.ok (INVALID_RID, [Field.null] ++ List.replicate 1 Field.null)]
          else [])) :=
  c7_null_left_key_no_matches [.ok (5, [Field.integer 9]), .ok (6, [Field.null])]
    0 0 1 true 1 [Field.null] [(Field.integer 9, [[Field.integer 9]])] rfl rfl

theorem get_field_error_of_le {row : Row} {i : Nat} (h : row.length ≤ i) :
    row.get_field i = .error (.invalidInput "field index out of bounds") := by
  unfold Row.get_field
  rw [List.get?_eq_none.mpr h]

theorem get_field_ok_of_lt {row : Row} {i : Nat} (h : i < row.length) :
    ∃ f, row.get_field i = .ok f := by
  cases hg : row.get? i with
  | none => exact absurd (List.get?_eq_none.mp hg) (Nat.not_le_of_lt h)
  | some f => exact ⟨f, by unfold Row.get_field; rw [hg]⟩

/-- C10: the hash join reads each left row's join column with an unchecked
`unwrap()` (`join.rs` line 188).  Draining a left stream that contains a row
with at most `left_column` fields panics (modelled as `none`) instead of
yielding an error item; under the precondition that every produced left row
has more than `left_column` fields, the access never fails and the drain
never panics. -/
theorem c10_hash_left_key_unwrap :
    (∀ (m : List (Field × List Row)) (lc rsize : Nat) (outer : Bool)
        (pre post : RowStream) (rid : RecordId) (row : Row),
      row.length ≤ lc →
      Join.hashProbeAll m lc rsize outer (pre ++ .ok (rid, row) :: post) = none)
    ∧ (∀ (m : List (Field × List Row)) (lc rsize : Nat) (outer : Bool)
        (left : RowStream),
      (∀ rid row, .ok (rid, row) ∈ left → lc < row.length) →
      ∃ out, Join.hashProbeAll m lc rsize outer left = some out) := by
  constructor
  · intro m lc rsize outer pre post rid row hlen
    induction pre with
    | nil =>
      simp [Join.hashProbeAll, Join.probeOne, get_field_error_of_le hlen]
    | cons item rest ih =>
      cases hp : Join.probeOne m lc rsize outer item with
      | none => simp [Join.hashProbeAll, hp]
      | some out => simp [Join.hashProbeAll, hp, ih]
  · intro m lc rsize outer left hlen
    induction left with
    | nil => exact ⟨[], rfl⟩
    | cons item rest ih =>
      obtain ⟨out, hout⟩ := ih fun rid row hmem =>
        hlen rid row (List.mem_cons_of_mem _ hmem)
      cases item with
      | error e => exact ⟨[.error e] ++ out, by simp [Join.hashProbeAll, Join.probeOne, hout]⟩
      | ok pr =>
        obtain ⟨rid, row⟩ := pr
        obtain ⟨f, hf⟩ := get_field_ok_of_lt (hlen rid row (List.mem_cons_self _ _))
        cases hl : Join.lookupMap m f with
        | some bucket =>
          refine ⟨bucket.map (fun r => .ok (INVALID_RID, row ++ r)) ++ out, ?_⟩
          simp [Join.hashProbeAll, Join.probeOne, hf, hl, hout]
        | none =>
          cases outer
          · exact ⟨[] ++ out, by simp [Join.hashProbeAll, Join.probeOne, hf, hl, hout]⟩
          · exact ⟨[.ok (INVALID_RID, row ++ List.replicate rsize Field.null)] ++ out,
              by simp [Join.hashProbeAll, Join.probeOne, hf, hl, hout]⟩

/-- C10 (witness): the theorem applied to a too-short left row (one field,
join column 1) yields the panic, and to a long-enough stream yields a
successful drain. -/
theorem c10_hash_left_key_unwrap_witness :
    Join.hashProbeAll [] 1 0 false ([] ++ .ok (7, [Field.null]) :: []) = none
    ∧ ∃ out, Join.hashProbeAll [] 0 0 false [.ok (7, [Field.null])] = some out :=
  ⟨c10_hash_left_key_unwrap.1 [] 1 0 false [] [] 7 [Field.null] (by decide),
   c10_hash_left_key_unwrap.2 [] 0 0 false [.ok (7, [Field.null])]
     (by
       intro rid row hmem
       simp only [List.mem_singleton] at hmem
       injection hmem with h2
       cases h2
       decide)⟩

theorem stageInsert_mem {m : List (RecordId × Row)} {rid : RecordId} {row : Row}
    {x : RecordId × Row} (h : x ∈ Write.stageInsert m rid row) :
    x = (rid, row) ∨ x ∈ m := by
  induction m with
  | nil => simpa [Write.stageInsert] using h
  | cons kv rest ih =>
    obtain ⟨k, r⟩ := kv
    by_cases h1 : rid < k
    · simp only [Write.stageInsert, if_pos h1, List.mem_cons] at h
      rcases h with h | h | h
      · exact Or.inl h
      · exact Or.inr (by simp [h])
      · exact Or.inr (List.mem_cons_of_mem _ h)
    · by_cases h2 : rid = k
      · simp only [Write.stageInsert, if_neg h1, if_pos h2, List.mem_cons] at h
        rcases h with h | h
        · exact Or.inl h
        · exact Or.inr (List.mem_cons_of_mem _ h)
      · simp only [Write.stageInsert, if_neg h1, if_neg h2, List.mem_cons] at h
        rcases h with h | h
        · exact Or.inr (by simp [h])
        · rcases ih h with h3 | h3
          · exact Or.inl h3
          · exact Or.inr (List.mem_cons_of_mem _ h3)

theorem stageInsert_pairwise {m : List (RecordId × Row)} (rid : RecordId) (row : Row)
    (hm : m.Pairwise fun a b => a.1 < b.1) :
    (Write.stageInsert m rid row).Pairwise fun a b => a.1 < b.1 := by
  induction m with
  | nil => simp [Write.stageInsert]
  | cons kv rest ih =>
    obtain ⟨k, r⟩ := kv
    rw [List.pairwise_cons] at hm
    obtain ⟨hk, hrest⟩ := hm
    by_cases h1 : rid < k
    · simp only [Write.stageInsert, if_pos h1]
      refine List.Pairwise.cons ?_ (List.Pairwise.cons hk hrest)
      intro y hy
      rcases List.mem_cons.mp hy with rfl | hy
      · exact h1
      · exact lt_trans h1 (hk y hy)
    · by_cases h2 : rid = k
      · simp only [Write.stageInsert, if_neg h1, if_pos h2]
        refine List.Pairwise.cons ?_ hrest
        intro y hy
        rw [h2]
        exact hk y hy
      · simp only [Write.stageInsert, if_neg h1, if_neg h2]
        refine List.Pairwise.cons ?_ (ih hrest)
        intro y hy
        rcases stageInsert_mem hy with h3 | h3
        · rw [h3]
          exact lt_of_le_of_ne (Nat.le_of_not_lt h1) (Ne.symm h2)
        · exact hk y h3

theorem stageLookup_insert (m : List (RecordId × Row)) (rid : RecordId) (row : Row)
    (x : RecordId) :
    Write.stageLookup (Write.stageInsert m rid row) x =
      if x = rid then some row else Write.stageLookup m x := by
  induction m with
  | nil => simp [Write.stageInsert, Write.stageLookup]
  | cons kv rest ih =>
    obtain ⟨k, r⟩ := kv
    by_cases h1 : rid < k
    · simp only [Write.stageInsert, if_pos h1]
      by_cases hx : x = rid <;> simp [Write.stageLookup, hx]
    · by_cases h2 : rid = k
      · subst h2
        simp only [Write.stageInsert, if_neg h1, if_pos rfl]
        by_cases hx : x = rid <;> simp [Write.stageLookup, hx]
      · simp only [Write.stageInsert, if_neg h1, if_neg h2]
        by_cases hx : x = k
        · subst hx
          have : ¬x = rid := fun hh => h2 hh.symm
          simp [Write.stageLookup, this]
        · simp [Write.stageLookup, hx, ih]

theorem stageInsert_keys (m : List (RecordId × Row)) (rid : RecordId) (row : Row) :
    ((Write.stageInsert m rid row).map Prod.fst).toFinset =
      insert rid (m.map Prod.fst).toFinset := by
  induction m with
  | nil => simp [Write.stageInsert]
  | cons kv rest ih =>
    obtain ⟨k, r⟩ := kv
    by_cases h1 : rid < k
    · simp [Write.stageInsert, if_pos h1]
    · by_cases h2 : rid = k
      · subst h2
        simp [Write.stageInsert, if_neg h1]
      · simp only [Write.stageInsert, if_neg h1, if_neg h2, List.map_cons, List.toFinset_cons,
          ih]
        exact Finset.Insert.comm k rid _

theorem stageAll_props (exprs : List (Nat × Expression)) :
    ∀ (source : RowStream) (m0 m : List (RecordId × Row)),
      m0.Pairwise (fun a b => a.1 < b.1) →
      Write.stageAll exprs source m0 = .ok m →
      m.Pairwise (fun a b => a.1 < b.1)
      ∧ (∀ x r, lastStagedSpec exprs source x = some r → Write.stageLookup m x = some r)
      ∧ (∀ x, lastStagedSpec exprs source x = none →
          Write.stageLookup m x = Write.stageLookup m0 x)
      ∧ (m.map Prod.fst).toFinset = (okRids source).toFinset ∪ (m0.map Prod.fst).toFinset := by
  intro source
  induction source with
  | nil =>
    intro m0 m h0 hs
    simp only [Write.stageAll] at hs
    injection hs with hs
    subst hs
    refine ⟨h0, ?_, ?_, ?_⟩
    · intro x r h
      simp [lastStagedSpec] at h
    · intro x _
      rfl
    · simp [okRids]
  | cons item rest ih =>
    intro m0 m h0 hs
    cases item with
    | error e => simp [Write.stageAll] at hs
    | ok pr =>
      obtain ⟨rid, row⟩ := pr
      cases ha : Write.applyExpressions exprs row with
      | error e => simp [Write.stageAll, ha] at hs
      | ok row2 =>
        simp only [Write.stageAll, ha] at hs
        have hins := stageInsert_pairwise (m := m0) rid row2 h0
        obtain ⟨hp, hsome, hnone, hkeys⟩ := ih (Write.stageInsert m0 rid row2) m hins hs
        refine ⟨hp, ?_, ?_, ?_⟩
        · intro x r hl
          cases hrest : lastStagedSpec exprs rest x with
          | some r2 =>
            have : r2 = r := by simpa [lastStagedSpec, hrest] using hl
            subst this
            exact hsome x r2 hrest
          | none =>
            simp only [lastStagedSpec, hrest] at hl
            by_cases hr : rid = x
            · subst hr
              simp only [if_pos rfl, ha, Except.toOption] at hl
              injection hl with hl
              subst hl
              rw [hnone rid hrest, stageLookup_insert, if_pos rfl]
            · simp [if_neg hr] at hl
        · intro x hl
          cases hrest : lastStagedSpec exprs rest x with
          | some r2 => simp [lastStagedSpec, hrest] at hl
          | none =>
            simp only [lastStagedSpec, hrest] at hl
            by_cases hr : rid = x
            · subst hr
              simp [if_pos rfl, ha, Except.toOption] at hl
            · rw [hnone x hrest, stageLookup_insert, if_neg (fun hh => hr hh.symm)]
        · rw [hkeys, stageInsert_keys]
          have hok : okRids (.ok (rid, row) :: rest) = rid :: okRids rest := rfl
          rw [hok, List.toFinset_cons, Finset.insert_union, Finset.union_insert]

theorem applyExpressions_append (xs ys : List (Nat × Expression)) :
    ∀ row : Row,
      Write.applyExpressions (xs ++ ys) row =
        match Write.applyExpressions xs row with
        | .error e => .error e
        | .ok row2 => Write.applyExpressions ys row2 := by
  induction xs with
  | nil => intro row; rfl
  | cons pe rest ih =>
    intro row
    obtain ⟨i, e⟩ := pe
    cases hv : e row with
    | error er => simp [Write.applyExpressions, List.cons_append, hv]
    | ok v =>
      cases hu : row.update_field i v with
      | error er => simp [Write.applyExpressions, List.cons_append, hv, hu]
      | ok row2 => simp [Write.applyExpressions, List.cons_append, hv, hu, ih row2]

/-- C9: a successful Update drain stages each mutated row keyed by its
original identity in an identity-ordered map with strictly increasing keys,
deduplicating identities with the last write winning; the batched storage
update is issued once and the operator returns the number of distinct
identities among the source rows.  Expressions apply sequentially: a split
expression list applies as the first part followed by the second on the
already-updated row. -/
theorem c9_update_stages_dedup_last_write
    (txnU : String → List (RecordId × Row) → Except Error Unit) (table : String)
    (source : RowStream) (exprs : List (Nat × Expression))
    (m : List (RecordId × Row))
    (hstage : Write.stageAll exprs source [] = .ok m)
    (htxn : txnU table m = .ok ()) :
    Write.update txnU table source exprs = .ok m.length
    ∧ m.Pairwise (fun a b => a.1 < b.1)
    ∧ (∀ x, Write.stageLookup m x = lastStagedSpec exprs source x)
    ∧ m.length = (okRids source).dedup.length
    ∧ (∀ (xs ys : List (Nat × Expression)) (row : Row),
        Write.applyExpressions (xs ++ ys) row =
          match Write.applyExpressions xs row with
          | .error e => .error e
          | .ok row2 => Write.applyExpressions ys row2) := by
  obtain ⟨hp, hsome, hnone, hkeys⟩ := stageAll_props exprs source [] m (by simp) hstage
  have hlen : m.length = (okRids source).dedup.length := by
    have hnodup : (m.map Prod.fst).Nodup := by
      have : (m.map Prod.fst).Pairwise (· < ·) := List.pairwise_map.mpr hp
      exact this.imp Nat.ne_of_lt
    have hcard : (m.map Prod.fst).toFinset = (okRids source).toFinset := by
      rw [hkeys]
      simp
    calc m.length = (m.map Prod.fst).length := (List.length_map _ _).symm
      _ = (m.map Prod.fst).toFinset.card := (List.toFinset_card_of_nodup hnodup).symm
      _ = (okRids source).toFinset.card := by rw [hcard]
      _ = (okRids source).dedup.length := List.card_toFinset _
  refine ⟨?_, hp, ?_, hlen, fun xs ys row => applyExpressions_append xs ys row⟩
  · simp [Write.update, hstage, htxn]
  · intro x
    cases hl : lastStagedSpec exprs source x with
    | some r => exact hsome x r hl
    | none => rw [hnone x hl]; rfl

/-- C9 (witness): the theorem applied to a three-row source with duplicate
identity 2: the staged map is `[(1, row), (2, row)]`, the count is the two
distinct identities, and lookups reflect the last write. -/
theorem c9_update_witness :
    Write.update (fun _ _ => .ok ()) "t"
      [.ok (2, [Field.integer 1]), .ok (1, [Field.integer 5]), .ok (2, [Field.integer 7])]
      [(0, fun _ => .ok (.integer 9))] = .ok 2 :=
  (c9_update_stages_dedup_last_write (fun _ _ => .ok ()) "t"
    [.ok (2, [Field.integer 1]), .ok (1, [Field.integer 5]), .ok (2, [Field.integer 7])]
    [(0, fun _ => .ok (.integer 9))]
    [(1, [Field.integer 9]), (2, [Field.integer 9])] rfl rfl).1

/-- C6: aggregation over an empty input stream with no GROUP BY expressions
emits exactly one row carrying the invalid record identity, built from each
accumulator's zero value: `COUNT` yields integer 0 and `SUM`, `MAX`, `MIN`
and `AVG` yield NULL, in the requested aggregate order. -/
theorem c6_empty_aggregation_identity_row (aggs : List Agg.Aggregate) :
    Agg.aggregate [] [] aggs =
      .ok [.ok (INVALID_RID, aggs.map zeroValueSpec)] := by
  simp [Agg.aggregate, Agg.drain, Agg.intoRows, Except.bind, exceptMapM_value_new]

theorem Field.cmp_refl (a : Field) : Field.cmp a a = .eq := by
  cases a <;> simp [Field.cmp, cmpVia, lt_irrefl]

theorem dirCmp_refl (d : Direction) (a : Field) : dirCmp d a a = .eq := by
  unfold dirCmp
  by_cases hd : d = .descending <;> simp [hd, Field.cmp_refl, Ordering.swap]

theorem cmpKeys_nil (ka kb : List Field) : Transform.cmpKeys [] ka kb = .eq := by
  cases ka <;> cases kb <;> rfl

theorem cmpKeys_ne_gt_total (ds : List Direction) (ka kb : List Field) :
    Transform.cmpKeys ds ka kb ≠ .gt ∨ Transform.cmpKeys ds kb ka ≠ .gt := by
  by_cases h : Transform.cmpKeys ds ka kb = .gt
  · right
    rw [cmpKeys_swap ds kb ka, h]
    simp [Ordering.swap]
  · exact Or.inl h

theorem cmpKeys_eq_of_both_ne_gt {ds : List Direction} {ka kb : List Field}
    (h1 : Transform.cmpKeys ds ka kb ≠ .gt) (h2 : Transform.cmpKeys ds kb ka ≠ .gt) :
    Transform.cmpKeys ds ka kb = .eq := by
  cases hc : Transform.cmpKeys ds ka kb with
  | eq => rfl
  | gt => exact absurd hc h1
  | lt =>
    exfalso
    apply h2
    rw [cmpKeys_swap ds kb ka, hc]
    rfl

theorem cmpKeys_ne_gt_trans :
    ∀ (ds : List Direction) (ka kb kc : List Field),
      ka.length = ds.length → kb.length = ds.length → kc.length = ds.length →
      Transform.cmpKeys ds ka kb ≠ .gt → Transform.cmpKeys ds kb kc ≠ .gt →
      Transform.cmpKeys ds ka kc ≠ .gt := by
  intro ds
  induction ds with
  | nil =>
    intro ka kb kc _ _ _ _ _
    rw [cmpKeys_nil]
    simp
  | cons d ds ih =>
    intro ka kb kc ha hb hc h1 h2
    cases ka with
    | nil => simp at ha
    | cons a as =>
    cases kb with
    | nil => simp at hb
    | cons b bs =>
    cases kc with
    | nil => simp at hc
    | cons c cs =>
    simp only [List.length_cons, Nat.succ.injEq] at ha hb hc
    rw [cmpKeys_cons] at h1 h2 ⊢
    cases hab : dirCmp d a b with
    | gt => rw [hab] at h1; exact absurd rfl h1
    | eq =>
      have hab2 := dirCmp_eq_of_eq hab
      subst hab2
      rw [hab] at h1
      cases hbc : dirCmp d a c with
      | gt => rw [hbc] at h2; exact absurd rfl h2
      | lt => simp
      | eq =>
        have hbc2 := dirCmp_eq_of_eq hbc
        subst hbc2
        rw [hbc] at h2
        simpa using ih as bs cs ha hb hc h1 h2
    | lt =>
      rw [hab] at h1
      cases hbc : dirCmp d b c with
      | gt => rw [hbc] at h2; exact absurd rfl h2
      | eq =>
        have hbc2 := dirCmp_eq_of_eq hbc
        subst hbc2
        rw [hab]
        simp
      | lt =>
        rw [dirCmp_lt_trans hab hbc]
        simp

theorem pairwise_orderedInsert_local {α : Type _} (r : α → α → Prop) [DecidableRel r]
    (x : α) (m : List α) (hm : m.Pairwise r)
    (htot : ∀ y ∈ m, r x y ∨ r y x)
    (htrans : ∀ b ∈ m, ∀ z ∈ m, r x b → r b z → r x z) :
    (m.orderedInsert r x).Pairwise r := by
  induction m with
  | nil => simp [List.orderedInsert]
  | cons b bs ih =>
    rw [List.pairwise_cons] at hm
    obtain ⟨hb, hbs⟩ := hm
    by_cases hxb : r x b
    · simp only [List.orderedInsert, if_pos hxb]
      refine List.Pairwise.cons ?_ (List.Pairwise.cons hb hbs)
      intro z hz
      rcases List.mem_cons.mp hz with rfl | hz
      · exact hxb
      · exact htrans b (List.mem_cons_self _ _) z (List.mem_cons_of_mem _ hz) hxb (hb z hz)
    · simp only [List.orderedInsert, if_neg hxb]
      refine List.Pairwise.cons ?_
        (ih hbs (fun y hy => htot y (List.mem_cons_of_mem _ hy))
          (fun y hy z hz => htrans y (List.mem_cons_of_mem _ hy) z (List.mem_cons_of_mem _ hz)))
      intro z hz
      rcases (List.mem_orderedInsert _).mp hz with rfl | hz
      · rcases htot b (List.mem_cons_self _ _) with h | h
        · exact absurd h hxb
        · exact h
      · exact hb z hz

theorem pairwise_insertionSort_local {α : Type _} (r : α → α → Prop) [DecidableRel r]
    (l : List α)
    (htot : ∀ a ∈ l, ∀ b ∈ l, r a b ∨ r b a)
    (htrans : ∀ a ∈ l, ∀ b ∈ l, ∀ c ∈ l, r a b → r b c → r a c) :
    (l.insertionSort r).Pairwise r := by
  induction l with
  | nil => simp
  | cons x xs ih =>
    simp only [List.insertionSort]
    refine pairwise_orderedInsert_local r x _
      (ih (fun a ha b hb => htot a (List.mem_cons_of_mem _ ha) b (List.mem_cons_of_mem _ hb))
        (fun a ha b hb c hc =>
          htrans a (List.mem_cons_of_mem _ ha) b (List.mem_cons_of_mem _ hb)
            c (List.mem_cons_of_mem _ hc)))
      ?_ ?_
    · intro y hy
      exact htot x (List.mem_cons_self _ _) y
        (List.mem_cons_of_mem _ ((List.mem_insertionSort _).mp hy))
    · intro b hb z hz hxb hbz
      exact htrans x (List.mem_cons_self _ _) b
        (List.mem_cons_of_mem _ ((List.mem_insertionSort _).mp hb)) z
        (List.mem_cons_of_mem _ ((List.mem_insertionSort _).mp hz)) hxb hbz

theorem orderedInsert_pairwise_stable {α : Type _} (r : α → α → Prop) [DecidableRel r]
    (s : α → α → Prop) (x : α) (m : List α)
    (hm : m.Pairwise fun a b => (r a b ∧ r b a) → s a b)
    (hx : ∀ y ∈ m, (r x y ∧ r y x) → s x y) :
    (m.orderedInsert r x).Pairwise fun a b => (r a b ∧ r b a) → s a b := by
  induction m with
  | nil => simp [List.orderedInsert]
  | cons b bs ih =>
    rw [List.pairwise_cons] at hm
    obtain ⟨hb, hbs⟩ := hm
    by_cases hxb : r x b
    · simp only [List.orderedInsert, if_pos hxb]
      refine List.Pairwise.cons ?_ (List.Pairwise.cons hb hbs)
      intro z hz
      rcases List.mem_cons.mp hz with rfl | hz
      · exact hx z (List.mem_cons_self _ _)
      · exact hx z (List.mem_cons_of_mem _ hz)
    · simp only [List.orderedInsert, if_neg hxb]
      refine List.Pairwise.cons ?_ (ih hbs fun y hy => hx y (List.mem_cons_of_mem _ hy))
      intro z hz
      rcases (List.mem_orderedInsert _).mp hz with rfl | hz
      · intro hcon
        exact absurd hcon.2 hxb
      · exact hb z hz

theorem insertionSort_pairwise_stable {α : Type _} (r : α → α → Prop) [DecidableRel r]
    (s : α → α → Prop) (l : List α) (hl : l.Pairwise s) :
    (l.insertionSort r).Pairwise fun a b => (r a b ∧ r b a) → s a b := by
  induction l with
  | nil => simp
  | cons x xs ih =>
    rw [List.pairwise_cons] at hl
    obtain ⟨hx, hxs⟩ := hl
    simp only [List.insertionSort]
    refine orderedInsert_pairwise_stable r s x _ (ih hxs) ?_
    intro y hy _
    exact hx y ((List.mem_insertionSort _).mp hy)

theorem collectOk_map_ok (pairs : List (RecordId × Row)) :
    Transform.collectOk (pairs.map .ok) = .ok pairs := by
  induction pairs with
  | nil => rfl
  | cons p rest ih => simp [Transform.collectOk, ih]

theorem exceptMapM_ok_of_forall {α β : Type _} {f : α → Except Error β} {g : α → β} :
    ∀ {l : List α}, (∀ x ∈ l, f x = .ok (g x)) → exceptMapM f l = .ok (l.map g) := by
  intro l
  induction l with
  | nil => intro _; rfl
  | cons a rest ih =>
    intro h
    simp [exceptMapM, h a (List.mem_cons_self _ _),
      ih fun x hx => h x (List.mem_cons_of_mem _ hx)]

theorem exceptMapM_length {α β : Type _} (f : α → Except Error β) :
    ∀ (l : List α) (ys : List β), exceptMapM f l = .ok ys → ys.length = l.length := by
  intro l
  induction l with
  | nil =>
    intro ys h
    simp only [exceptMapM] at h
    injection h with h
    simp [← h]
  | cons a rest ih =>
    intro ys h
    cases hf : f a with
    | error e => simp [exceptMapM, hf] at h
    | ok b =>
      cases hr : exceptMapM f rest with
      | error e => simp [exceptMapM, hf, hr] at h
      | ok bs =>
        simp only [exceptMapM, hf, hr] at h
        injection h with h
        simp [← h, ih bs hr]

theorem mem_enumFrom_zip_fst {β γ : Type _} :
    ∀ (xs : List β) (ks : List γ) (n : Nat) (e : (Nat × β) × γ),
      e ∈ (List.enumFrom n xs).zip ks → n ≤ e.1.1 := by
  intro xs
  induction xs with
  | nil => intro ks n e h; simp [List.enumFrom] at h
  | cons x xs ih =>
    intro ks n e h
    cases ks with
    | nil => simp at h
    | cons k ks2 =>
      rcases List.mem_cons.mp h with rfl | h
      · exact le_refl n
      · exact Nat.le_of_succ_le (ih ks2 (n + 1) e h)

theorem pairwise_enumFrom_zip {β γ : Type _} :
    ∀ (xs : List β) (ks : List γ) (n : Nat),
      ((List.enumFrom n xs).zip ks).Pairwise fun a b => a.1.1 < b.1.1 := by
  intro xs
  induction xs with
  | nil => intro ks n; simp [List.enumFrom]
  | cons x xs ih =>
    intro ks n
    cases ks with
    | nil => simp
    | cons k ks2 =>
      refine List.Pairwise.cons ?_ (ih ks2 (n + 1))
      intro b hb
      exact Nat.lt_of_lt_of_le (Nat.lt_succ_self n) (mem_enumFrom_zip_fst xs ks2 (n + 1) b hb)

theorem zip_enum_map_snd {β γ : Type _} (g : β → γ) :
    ∀ (xs : List β) (n : Nat) (e : (Nat × β) × γ),
      e ∈ (List.enumFrom n xs).zip (xs.map g) → e.2 = g e.1.2 := by
  intro xs
  induction xs with
  | nil => intro n e h; simp [List.enumFrom] at h
  | cons x xs ih =>
    intro n e h
    rcases List.mem_cons.mp h with rfl | h
    · rfl
    · exact ih (n + 1) e h

/-- C8: the Order operator is a stable multi-key sort.  For a pure input
stream whose key vectors evaluate successfully (to `kf` of each row), the
operator emits a permutation of the enumerated input rows that is sorted
under the positional direction-aware comparator; rows equal on all keys keep
their original relative order (strictly increasing enumeration indices); the
comparator decides by the first non-equal key, a descending direction
reversing only that key's result, and equal heads recurse on the tails; and a
failing key evaluation aborts the whole operator before any row is emitted,
evaluation happening once per row prior to sorting. -/
theorem c8_order_stable_multikey_sort (pairs : List (RecordId × Row))
    (ord : List (Expression × Direction)) (kf : Row → List Field)
    (hkf : ∀ p ∈ pairs, Transform.evalKeys ord p.2 = .ok (kf p.2)) :
    ∃ sorted : List ((Nat × (RecordId × Row)) × List Field),
      Transform.order (pairs.map .ok) ord = .ok (sorted.map fun e => .ok e.1.2)
      ∧ List.Perm sorted (pairs.enum.zip (pairs.map fun p => kf p.2))
      ∧ sorted.Pairwise (fun a b =>
          Transform.cmpKeys (ord.map Prod.snd) a.2 b.2 ≠ Ordering.gt)
      ∧ sorted.Pairwise (fun a b =>
          Transform.cmpKeys (ord.map Prod.snd) a.2 b.2 = Ordering.eq → a.1.1 < b.1.1)
      ∧ (∀ e ∈ sorted, e.2 = kf e.1.2.2)
      ∧ (∀ (d : Direction) (ds : List Direction) (a b : Field) (as bs : List Field),
          Field.cmp a b ≠ .eq →
            Transform.cmpKeys (d :: ds) (a :: as) (b :: bs) =
              (if d = .descending then (Field.cmp a b).swap else Field.cmp a b))
      ∧ (∀ (d : Direction) (ds : List Direction) (a : Field) (as bs : List Field),
          Transform.cmpKeys (d :: ds) (a :: as) (a :: bs) = Transform.cmpKeys ds as bs)
      ∧ (∀ (r0 : RecordId × Row) (e : Error),
          Transform.evalKeys ord r0.2 = .error e →
            Transform.order [.ok r0] ord = .error e) := by
  have hsvals : exceptMapM (fun p => Transform.evalKeys ord p.2) pairs =
      .ok (pairs.map fun p => kf p.2) :=
    exceptMapM_ok_of_forall fun p hp => hkf p hp
  set dirs := ord.map Prod.snd with hdirs
  set entries := pairs.enum.zip (pairs.map fun p => kf p.2) with hentries
  set r : ((Nat × (RecordId × Row)) × List Field) → ((Nat × (RecordId × Row)) × List Field) → Prop :=
    fun a b => Transform.cmpKeys dirs a.2 b.2 ≠ Ordering.gt with hr
  have hklen : ∀ e ∈ entries, e.2.length = dirs.length := by
    intro e he
    have h2 : e.2 ∈ pairs.map fun p => kf p.2 := (List.of_mem_zip he).2
    obtain ⟨p, hp, hpe⟩ := List.mem_map.mp h2
    have hlen := exceptMapM_length (fun ed => ed.1 p.2) ord (kf p.2)
      (by simpa [Transform.evalKeys] using hkf p hp)
    rw [hpe] at hlen
    rw [hdirs]
    simpa using hlen
  refine ⟨List.insertionSort r entries, ?_, ?_, ?_, ?_, ?_, ?_, ?_, ?_⟩
  · simp only [Transform.order, collectOk_map_ok, hsvals]
  · exact List.perm_insertionSort r entries
  · exact pairwise_insertionSort_local r entries
      (fun a _ b _ => cmpKeys_ne_gt_total dirs a.2 b.2)
      (fun a ha b hb c hc h1 h2 =>
        cmpKeys_ne_gt_trans dirs a.2 b.2 c.2 (hklen a ha) (hklen b hb) (hklen c hc) h1 h2)
  · have hpair2 : entries.Pairwise (fun a b => a.1.1 < b.1.1) := by
      rw [hentries]
      exact pairwise_enumFrom_zip pairs (pairs.map fun p => kf p.2) 0
    have hstable := insertionSort_pairwise_stable r (fun a b => a.1.1 < b.1.1)
      entries hpair2
    refine List.Pairwise.imp ?_ hstable
    intro a b hab heq
    refine hab ⟨?_, ?_⟩
    · rw [hr]
      simp [heq]
    · rw [hr]
      simp only
      rw [cmpKeys_swap dirs b.2 a.2, heq]
      simp [Ordering.swap]
  · intro e he
    exact zip_enum_map_snd (fun p => kf p.2) pairs 0 e ((List.mem_insertionSort _).mp he)
  · intro d ds a b as bs hne
    rw [cmpKeys_cons]
    by_cases hd : d = .descending <;> cases hc : Field.cmp a b <;>
      simp [dirCmp, hd, hc, Ordering.swap] at hne ⊢
  · intro d ds a as bs
    rw [cmpKeys_cons, dirCmp_refl]
  · intro r0 e he
    obtain ⟨rid, row⟩ := r0
    simp only at he
    simp [Transform.order, Transform.collectOk, exceptMapM, he]

/-- C8 (witness): three rows with keys 2, 2, 1 under one ascending key sort
to 1, 2, 2 with the two equal-key rows in original order. -/
theorem c8_order_stable_sort_witness :
    ∃ sorted : List ((Nat × (RecordId × Row)) × List Field),
      Transform.order
          ([((1 : RecordId), [Field.integer 2]), (2, [Field.integer 2]),
            (3, [Field.integer 1])].map .ok)
          ([((fun row => Except.ok (row.getD 0 Field.null)), Direction.ascending)] :
            List (Expression × Direction)) =
        .ok (sorted.map fun e => .ok e.1.2)
      ∧ List.Perm sorted
          (([((1 : RecordId), [Field.integer 2]), (2, [Field.integer 2]),
            (3, [Field.integer 1])].enum).zip
            ([((1 : RecordId), [Field.integer 2]), (2, [Field.integer 2]),
              (3, [Field.integer 1])].map
              fun p => [p.2.getD 0 Field.null]))
      ∧ sorted.Pairwise (fun a b =>
          Transform.cmpKeys
            (([((fun row => Except.ok (row.getD 0 Field.null)), Direction.ascending)] :
              List (Expression × Direction)).map Prod.snd)
            a.2 b.2 ≠ Ordering.gt)
      ∧ sorted.Pairwise (fun a b =>
          Transform.cmpKeys
            (([((fun row => Except.ok (row.getD 0 Field.null)), Direction.ascending)] :
              List (Expression × Direction)).map Prod.snd)
            a.2 b.2 = Ordering.eq → a.1.1 < b.1.1)
      ∧ (∀ e ∈ sorted, e.2 = [e.1.2.2.getD 0 Field.null])
      ∧ (∀ (d : Direction) (ds : List Direction) (a b : Field) (as bs : List Field),
          Field.cmp a b ≠ .eq →
            Transform.cmpKeys (d :: ds) (a :: as) (b :: bs) =
              (if d = .descending then (Field.cmp a b).swap else Field.cmp a b))
      ∧ (∀ (d : Direction) (ds : List Direction) (a : Field) (as bs : List Field),
          Transform.cmpKeys (d :: ds) (a :: as) (a :: bs) = Transform.cmpKeys ds as bs)
      ∧ (∀ (r0 : RecordId × Row) (e : Error),
          Transform.evalKeys
              ([((fun row => Except.ok (row.getD 0 Field.null)), Direction.ascending)] :
                List (Expression × Direction)) r0.2 =
            .error e →
          Transform.order [.ok r0]
              ([((fun row => Except.ok (row.getD 0 Field.null)), Direction.ascending)] :
                List (Expression × Direction)) = .error e) :=
  c8_order_stable_multikey_sort
    [((1 : RecordId), [Field.integer 2]), (2, [Field.integer 2]), (3, [Field.integer 1])]
    ([((fun row => Except.ok (row.getD 0 Field.null)), Direction.ascending)] :
      List (Expression × Direction))
    (fun row => [row.getD 0 Field.null])
    (by intro p _; rfl)

end RustyDB
